import Mathlib

/-!
# Verification of the fieldEngineBundle SysEx pack pipeline

Shallow embedding of the Python tools in `plugins/_tools/sysex_pack.py`,
`plugins/_tools/pack_index.py`, `plugins/_tools/dump_layer_filters.py` and
`tools/extraction/syx_tools.py`.  Bytes are modelled as `Nat` (values kept
below 256 by explicit hypotheses where the Python `struct`/`bytes`
conversions would enforce it).  Python functions that can raise are modelled
with `Option`/`Except`.
-/

namespace SysexPack

/-- Metadata dictionary attached to a canonical record (the Python `meta`
dict).  Absent keys are `none`/`false` defaults, matching `dict.get`. -/
structure Meta where
  sub : Option Nat := none
  assembled : Bool := false
  heuristic : Bool := false
  idx : Option Nat := none
  validChecksum : Option Bool := none
  family : Option Nat := none
  dev : Option Nat := none
  zmf1 : Bool := false
  model : Option String := none
  sourceId : Option Nat := none
  deriving Repr, DecidableEq

/-- A canonical record (the Python entry dicts flowing through the
pipeline: keys `id`, `type`, `flags`, optional `meta`, `data`). -/
structure Rec where
  id : Nat
  type : Nat
  flags : Nat
  meta : Option Meta := none
  data : List Nat
  deriving Repr, DecidableEq

instance : Inhabited Rec := ⟨⟨0, 0, 0, none, []⟩⟩

/-- `int((e.get('meta', {}) or {}).get('sub', 0))` -/
def recSub (e : Rec) : Nat := ((e.meta.getD {}).sub).getD 0

/-- `max([e.get('id', 0) for e in entries] + [0])` -/
def maxId (es : List Rec) : Nat := (es.map (·.id)).foldr max 0

/-- One parsed entry-table row of a ZPK1 container, as read back by
`scan_pack` (`pack_index.py`). -/
structure Entry where
  id : Nat
  type : Nat
  sub : Nat
  flags : Nat
  offset : Nat
  length : Nat
  deriving Repr, DecidableEq

instance : Inhabited Entry := ⟨⟨0, 0, 0, 0, 0, 0⟩⟩

/-- The bytes `b'ZPK1'`. -/
def MAGIC : List Nat := [0x5A, 0x50, 0x4B, 0x31]

/-- Little-endian `struct.pack('<H', n)` payload (assuming `n < 2^16`). -/
def le16 (n : Nat) : List Nat := [n % 256, n / 256 % 256]

/-- Little-endian `struct.pack('<I', n)` payload (assuming `n < 2^32`). -/
def le32 (n : Nat) : List Nat :=
  [n % 256, n / 256 % 256, n / 65536 % 256, n / 16777216 % 256]

/-- Read a little-endian u16 at byte offset `o` (as `struct.unpack_from
('<H', b, o)` does once the bounds check has passed). -/
def rd16 (b : List Nat) (o : Nat) : Nat := b.getD o 0 + 256 * b.getD (o + 1) 0

/-- Read a little-endian u32 at byte offset `o`. -/
def rd32 (b : List Nat) (o : Nat) : Nat :=
  b.getD o 0 + 256 * b.getD (o + 1) 0 + 65536 * b.getD (o + 2) 0 +
    16777216 * b.getD (o + 3) 0

/-- `struct.pack('<IHHHII', id, type, sub, flags, offset, length)`:
one 18-byte entry-table row. -/
def entryBytes (e : Rec) (off : Nat) : List Nat :=
  le32 e.id ++ le16 e.type ++ le16 (recSub e) ++ le16 e.flags ++ le32 off ++
    le32 e.data.length

/-- The range checks `struct.pack` performs on one table row, together with
the `bytes(...)` conversion of the record's data. -/
def recFits (e : Rec) (off : Nat) : Prop :=
  e.id < 4294967296 ∧ e.type < 65536 ∧ recSub e < 65536 ∧ e.flags < 65536 ∧
    off < 4294967296 ∧ e.data.length < 4294967296 ∧ ∀ b ∈ e.data, b < 256

instance (e : Rec) (off : Nat) : Decidable (recFits e off) := by
  unfold recFits; infer_instance

/-- The table/blob building loop of `pack` (`sysex_pack.py`): walks the
records keeping a running `offset`, emitting the 18-byte table row and the
raw data of each record; `none` models a `struct.error`/`ValueError`. -/
def packTable : List Rec → Nat → Option (List Nat × List Nat)
  | [], _ => some ([], [])
  | e :: es, off =>
    if recFits e off then
      match packTable es (off + e.data.length) with
      | some (t, bl) => some (entryBytes e off ++ t, e.data ++ bl)
      | none => none
    else none

/-- `pack(entries)` from `sysex_pack.py`: magic, version 1, u16 count, the
entry table (offsets starting right after it), then the concatenated
blobs.  `none` models the exception Python raises when a field does not
fit its declared width. -/
def pack (records : List Rec) : Option (List Nat) :=
  if records.length < 65536 then
    match packTable records (8 + 18 * records.length) with
    | some (t, bl) => some (MAGIC ++ le16 1 ++ le16 records.length ++ t ++ bl)
    | none => none
  else none

/-- The entry that `pack` serializes for record `e` at running offset
`off`. -/
def expEntry (e : Rec) (off : Nat) : Entry :=
  ⟨e.id, e.type, recSub e, e.flags, off, e.data.length⟩

/-- The entry table `pack` writes for `records`, starting at running
offset `off`. -/
def expEntries : List Rec → Nat → List Entry
  | [], _ => []
  | e :: es, off => expEntry e off :: expEntries es (off + e.data.length)

/-- Read the 18-byte entry row starting at byte position `pos`. -/
def readEntryAt (b : List Nat) (pos : Nat) : Entry :=
  ⟨rd32 b pos, rd16 b (pos + 4), rd16 b (pos + 6), rd16 b (pos + 8),
    rd32 b (pos + 10), rd32 b (pos + 14)⟩

/-- Read entry `i` of the table (at byte `8 + 18*i`, `esz = 4+2+2+2+4+4 = 18`). -/
def readEntry (b : List Nat) (i : Nat) : Entry := readEntryAt b (8 + 18 * i)

/-- `scan_pack` from `pack_index.py`.  `Except.error ()` models the
`struct.error` Python raises when `unpack_from` runs past the end of the
buffer; `.ok none` is the Python `return None`. -/
def scan_pack (b : List Nat) : Except Unit (Option (List Entry)) :=
  if b.take 4 = MAGIC then
    if 8 ≤ b.length then
      if rd16 b 4 = 1 then
        if rd16 b 6 = 0 ∨ 8 + 18 * rd16 b 6 ≤ b.length then
          .ok (some ((List.range (rd16 b 6)).map (readEntry b)))
        else .error ()
      else .ok none
    else .error ()
  else .ok none

/-- Concatenation of the record payloads, in order (the `blobs` buffer
built by `pack`). -/
def blobBytes : List Rec → List Nat
  | [] => []
  | e :: es => e.data ++ blobBytes es

/-- Total payload length of a record list. -/
def lenSum (es : List Rec) : Nat := (es.map (·.data.length)).sum

lemma entryBytes_length (e : Rec) (off : Nat) : (entryBytes e off).length = 18 := by
  simp [entryBytes, le32, le16]

lemma blobBytes_length (es : List Rec) : (blobBytes es).length = lenSum es := by
  induction es with
  | nil => simp [blobBytes, lenSum]
  | cons e es ih => simp [blobBytes, lenSum] at ih ⊢; omega

lemma expEntries_length (es : List Rec) (off : Nat) :
    (expEntries es off).length = es.length := by
  induction es generalizing off with
  | nil => rfl
  | cons e es ih => simp [expEntries, ih]

lemma getD_concat (pre l : List Nat) (k d : Nat) :
    (pre ++ l).getD (pre.length + k) d = l.getD k d := by
  rw [List.getD_append_right _ _ _ _ (Nat.le_add_right _ _)]
  simp

lemma readEntryAt_shift (pre l : List Nat) (pos : Nat) :
    readEntryAt (pre ++ l) (pre.length + pos) = readEntryAt l pos := by
  unfold readEntryAt rd32 rd16
  simp only [Nat.add_assoc, getD_concat]

lemma readEntryAt_entryBytes (e : Rec) (off : Nat) (tail : List Nat)
    (h : recFits e off) : readEntryAt (entryBytes e off ++ tail) 0 = expEntry e off := by
  obtain ⟨h1, h2, h3, h4, h5, h6, -⟩ := h
  simp only [entryBytes, le32, le16, List.cons_append, List.nil_append]
  unfold readEntryAt expEntry
  simp only [Entry.mk.injEq]
  refine ⟨?_, ?_, ?_, ?_, ?_, ?_⟩
  · show e.id % 256 + 256 * (e.id / 256 % 256) + 65536 * (e.id / 65536 % 256) +
      16777216 * (e.id / 16777216 % 256) = e.id
    omega
  · show e.type % 256 + 256 * (e.type / 256 % 256) = e.type
    omega
  · show recSub e % 256 + 256 * (recSub e / 256 % 256) = recSub e
    omega
  · show e.flags % 256 + 256 * (e.flags / 256 % 256) = e.flags
    omega
  · show off % 256 + 256 * (off / 256 % 256) + 65536 * (off / 65536 % 256) +
      16777216 * (off / 16777216 % 256) = off
    omega
  · show e.data.length % 256 + 256 * (e.data.length / 256 % 256) +
      65536 * (e.data.length / 65536 % 256) + 16777216 * (e.data.length / 16777216 % 256) =
      e.data.length
    omega

lemma packTable_readEntry : ∀ (es : List Rec) (off : Nat) (t bl : List Nat),
    packTable es off = some (t, bl) →
    ∀ (pre post : List Nat) (i : Nat), i < es.length →
      readEntryAt (pre ++ (t ++ post)) (pre.length + 18 * i) =
        (expEntries es off).getD i default := by
  intro es
  induction es with
  | nil => intro off t bl h pre post i hi; simp at hi
  | cons e es ih =>
    intro off t bl h pre post i hi
    simp only [packTable] at h
    split at h
    case isFalse => exact absurd h (by simp)
    case isTrue hfit =>
      cases hrec : packTable es (off + e.data.length) with
      | none => rw [hrec] at h; simp at h
      | some p =>
        rw [hrec] at h
        obtain ⟨t', bl'⟩ := p
        simp only [Option.some.injEq, Prod.mk.injEq] at h
        obtain ⟨ht, hbl⟩ := h
        subst ht
        cases i with
        | zero =>
          rw [List.append_assoc]
          have := readEntryAt_shift pre (entryBytes e off ++ (t' ++ post)) 0
          simp only [Nat.mul_zero] at this ⊢
          rw [this, readEntryAt_entryBytes e off _ hfit]
          rfl
        | succ i =>
          have hlen : (pre ++ entryBytes e off).length = pre.length + 18 := by
            simp [entryBytes_length]
          have hassoc : pre ++ ((entryBytes e off ++ t') ++ post) =
              (pre ++ entryBytes e off) ++ (t' ++ post) := by
            simp [List.append_assoc]
          rw [hassoc]
          have harith : pre.length + 18 * (i + 1) =
              (pre ++ entryBytes e off).length + 18 * i := by rw [hlen]; ring
          rw [harith, ih (off + e.data.length) t' bl' hrec _ post i (by simpa using hi)]
          simp [expEntries]

lemma packTable_blobs : ∀ (es : List Rec) (off : Nat) (t bl : List Nat),
    packTable es off = some (t, bl) → bl = blobBytes es ∧ t.length = 18 * es.length := by
  intro es
  induction es with
  | nil =>
    intro off t bl h
    simp only [packTable, Option.some.injEq, Prod.mk.injEq] at h
    obtain ⟨h1, h2⟩ := h
    simp [← h1, ← h2, blobBytes]
  | cons e es ih =>
    intro off t bl h
    simp only [packTable] at h
    split at h
    case isFalse => exact absurd h (by simp)
    case isTrue hfit =>
      cases hrec : packTable es (off + e.data.length) with
      | none => rw [hrec] at h; simp at h
      | some p =>
        rw [hrec] at h
        obtain ⟨t', bl'⟩ := p
        simp only [Option.some.injEq, Prod.mk.injEq] at h
        obtain ⟨ht, hbl⟩ := h
        obtain ⟨ih1, ih2⟩ := ih _ _ _ hrec
        subst ht
        constructor
        · rw [← hbl, ih1, blobBytes]
        · simp [entryBytes_length, ih2]; ring

lemma drop_blobBytes : ∀ (es : List Rec) (pre : List Nat) (i : Nat), i < es.length →
    ((pre ++ blobBytes es).drop (pre.length + lenSum (es.take i))).take
      (es.getD i default).data.length = (es.getD i default).data := by
  intro es
  induction es with
  | nil => intro pre i hi; simp at hi
  | cons e es ih =>
    intro pre i hi
    cases i with
    | zero =>
      simp only [List.take_zero, lenSum, List.map_nil, List.sum_nil, Nat.add_zero, blobBytes,
        List.getD_cons_zero]
      rw [List.drop_left, List.take_left]
    | succ i =>
      simp only [blobBytes, List.getD_cons_succ]
      have hsum : lenSum ((e :: es).take (i + 1)) =
          e.data.length + lenSum (es.take i) := by
        simp [lenSum, List.take_succ_cons]
      rw [hsum, show pre ++ (e.data ++ blobBytes es) = (pre ++ e.data) ++ blobBytes es by
        simp [List.append_assoc],
        show pre.length + (e.data.length + lenSum (es.take i)) =
          (pre ++ e.data).length + lenSum (es.take i) by simp; ring]
      exact ih (pre ++ e.data) i (by simpa using hi)

lemma expEntries_getD (es : List Rec) (off i : Nat) (h : i < es.length) :
    (expEntries es off).getD i default =
      expEntry (es.getD i default) (off + lenSum (es.take i)) := by
  induction es generalizing off i with
  | nil => simp at h
  | cons e es ih =>
    cases i with
    | zero => simp [expEntries, lenSum]
    | succ i =>
      simp only [expEntries, List.getD_cons_succ, List.take_succ_cons]
      rw [ih _ _ (by simpa using h)]
      have : lenSum (e :: es.take i) = e.data.length + lenSum (es.take i) := by
        simp [lenSum]
      rw [this]
      ring_nf

lemma lenSum_take_succ (es : List Rec) (i : Nat) (h : i < es.length) :
    lenSum (es.take (i + 1)) = lenSum (es.take i) + (es.getD i default).data.length := by
  induction es generalizing i with
  | nil => simp at h
  | cons e es ih =>
    cases i with
    | zero => simp [lenSum]
    | succ i =>
      simp only [List.take_succ_cons, List.getD_cons_succ]
      have h' : i < es.length := by simpa using h
      have := ih i h'
      simp [lenSum] at this ⊢
      omega

lemma lenSum_take_le (es : List Rec) (k : Nat) : lenSum (es.take k) ≤ lenSum es := by
  induction es generalizing k with
  | nil => simp [lenSum]
  | cons e es ih =>
    cases k with
    | zero => simp [lenSum]
    | succ k =>
      simp only [List.take_succ_cons, lenSum, List.map_cons, List.sum_cons] at *
      exact Nat.add_le_add_left (ih k) _

/-- Everything `pack` guarantees about the produced buffer: magic, version,
count, total length, the content of every table row, and the bytes of every
payload region. -/
lemma pack_spec (records : List Rec) (buf : List Nat) (h : pack records = some buf) :
    buf.take 4 = MAGIC ∧ rd16 buf 4 = 1 ∧ rd16 buf 6 = records.length ∧
    buf.length = 8 + 18 * records.length + lenSum records ∧
    (∀ i, i < records.length →
      readEntry buf i = expEntry (records.getD i default)
        (8 + 18 * records.length + lenSum (records.take i))) ∧
    (∀ i, i < records.length →
      ((buf.drop (8 + 18 * records.length + lenSum (records.take i))).take
        (records.getD i default).data.length) = (records.getD i default).data) := by
  unfold pack at h
  split at h
  case isFalse => exact absurd h (by simp)
  case isTrue hcount =>
    cases hpt : packTable records (8 + 18 * records.length) with
    | none => rw [hpt] at h; simp at h
    | some p =>
      rw [hpt] at h
      obtain ⟨t, bl⟩ := p
      simp only [Option.some.injEq] at h
      obtain ⟨hbl, htlen⟩ := packTable_blobs _ _ _ _ hpt
      have hdr : MAGIC ++ le16 1 ++ le16 records.length ++ t ++ bl =
          (MAGIC ++ le16 1 ++ le16 records.length) ++ (t ++ bl) := by
        simp [List.append_assoc]
      have hdrlen : (MAGIC ++ le16 1 ++ le16 records.length).length = 8 := by
        simp [MAGIC, le16]
      subst h
      refine ⟨?_, ?_, ?_, ?_, ?_, ?_⟩
      · simp only [MAGIC, le16, List.cons_append, List.nil_append]
        rfl
      · show rd16 (MAGIC ++ le16 1 ++ le16 records.length ++ t ++ bl) 4 = 1
        simp only [MAGIC, le16, List.cons_append, List.nil_append, List.append_assoc]
        show (1 % 256 : Nat) + 256 * (1 / 256 % 256) = 1
        rfl
      · simp only [MAGIC, le16, List.cons_append, List.nil_append, List.append_assoc]
        show records.length % 256 + 256 * (records.length / 256 % 256) = records.length
        omega
      · rw [hdr]
        simp only [List.length_append, hdrlen, htlen, hbl, blobBytes_length]
        omega
      · intro i hi
        rw [hdr]
        unfold readEntry
        have : 8 + 18 * i = (MAGIC ++ le16 1 ++ le16 records.length).length + 18 * i := by
          rw [hdrlen]
        rw [this, packTable_readEntry records _ t bl hpt _ bl i hi,
          expEntries_getD records _ i hi]
      · intro i hi
        rw [hdr, ← List.append_assoc, hbl]
        have hlen2 : ((MAGIC ++ le16 1 ++ le16 records.length) ++ t).length =
            8 + 18 * records.length := by
          simp [List.length_append, MAGIC, le16, htlen]; omega
        rw [show 8 + 18 * records.length + lenSum (records.take i) =
            ((MAGIC ++ le16 1 ++ le16 records.length) ++ t).length +
              lenSum (records.take i) by rw [hlen2]]
        exact drop_blobBytes records _ i hi

lemma scan_pack_of_pack (records : List Rec) (buf : List Nat)
    (h : pack records = some buf) :
    scan_pack buf = .ok (some ((List.range records.length).map (readEntry buf))) := by
  obtain ⟨h1, h2, h3, h4, -, -⟩ := pack_spec records buf h
  have hlen8 : 8 ≤ buf.length := by omega
  have hbound : 8 + 18 * records.length ≤ buf.length := by omega
  unfold scan_pack
  rw [if_pos h1, if_pos hlen8, h2, if_pos rfl, h3, if_pos (Or.inr hbound)]

lemma scan_entries_eq (records : List Rec) (buf : List Nat)
    (h : pack records = some buf) :
    (List.range records.length).map (readEntry buf) =
      expEntries records (8 + 18 * records.length) := by
  obtain ⟨-, -, -, -, h5, -⟩ := pack_spec records buf h
  apply List.ext_getElem
  · simp [expEntries_length]
  · intro i hi1 hi2
    have hi : i < records.length := by simpa using hi1
    have hlen : i < (expEntries records (8 + 18 * records.length)).length := by
      rw [expEntries_length]; exact hi
    rw [List.getElem_map, List.getElem_range, ← List.getD_eq_getElem _ default hlen,
      expEntries_getD records _ i hi, h5 i hi]

/-- **C1** (round-trip): if `pack` succeeds on a record collection — i.e.
every id/offset/length fits in a u32, every type/subtype/flags in a u16,
the count in a u16, and every data byte in a byte — then `scan_pack` on the
produced buffer yields exactly one entry per record, in order, with the
same id, type, subtype and flags, entry length equal to the record's data
length, and the `length` bytes at the entry's offset are byte-identical to
that record's data. -/
theorem pack_scan_roundtrip (records : List Rec) (buf : List Nat)
    (h : pack records = some buf) :
    scan_pack buf = .ok (some (expEntries records (8 + 18 * records.length))) ∧
    (expEntries records (8 + 18 * records.length)).length = records.length ∧
    ∀ i, i < records.length →
      ((expEntries records (8 + 18 * records.length)).getD i default).id =
          (records.getD i default).id ∧
      ((expEntries records (8 + 18 * records.length)).getD i default).type =
          (records.getD i default).type ∧
      ((expEntries records (8 + 18 * records.length)).getD i default).sub =
          recSub (records.getD i default) ∧
      ((expEntries records (8 + 18 * records.length)).getD i default).flags =
          (records.getD i default).flags ∧
      ((expEntries records (8 + 18 * records.length)).getD i default).length =
          (records.getD i default).data.length ∧
      (buf.drop ((expEntries records (8 + 18 * records.length)).getD i default).offset).take
          ((expEntries records (8 + 18 * records.length)).getD i default).length =
        (records.getD i default).data := by
  obtain ⟨-, -, -, -, -, h6⟩ := pack_spec records buf h
  refine ⟨?_, expEntries_length records _, ?_⟩
  · rw [scan_pack_of_pack records buf h, scan_entries_eq records buf h]
  · intro i hi
    rw [expEntries_getD records _ i hi]
    exact ⟨rfl, rfl, rfl, rfl, rfl, h6 i hi⟩

/-- Example record collection and its packed container, used to
instantiate the container theorems on concrete data. -/
def rtRecords : List Rec :=
  [⟨1, 0x10, 5, some { sub := some 0x22 }, [1, 2, 3]⟩, ⟨2, 3, 4, none, [9]⟩]

/-- The container `pack` builds for `rtRecords`. -/
def rtBuf : List Nat := (pack rtRecords).getD []

theorem pack_scan_roundtrip_w :
    pack rtRecords = some rtBuf ∧
    scan_pack rtBuf = .ok (some (expEntries rtRecords (8 + 18 * rtRecords.length))) ∧
    (rtBuf.drop ((expEntries rtRecords (8 + 18 * rtRecords.length)).getD 0 default).offset).take
        ((expEntries rtRecords (8 + 18 * rtRecords.length)).getD 0 default).length =
      (rtRecords.getD 0 default).data := by
  have h : pack rtRecords = some rtBuf := by decide
  have hr := pack_scan_roundtrip rtRecords rtBuf h
  exact ⟨h, hr.1, ((hr.2.2 0 (by decide)).2.2.2.2.2)⟩

/-- **C2 counterexample**: the claim states `entries[0].offset = 8 + 16*count`,
but a table row is 18 bytes (`4+2+2+2+4+4`), so on a single-record
collection the first offset is `8 + 18 = 26`, not `8 + 16 = 24`. -/
theorem pack_tiling_cex :
    pack [⟨7, 1, 0, none, [0x41]⟩] = some ((pack [⟨7, 1, 0, none, [0x41]⟩]).getD []) ∧
    (readEntry ((pack [⟨7, 1, 0, none, [0x41]⟩]).getD []) 0).offset = 26 ∧
    ¬ (readEntry ((pack [⟨7, 1, 0, none, [0x41]⟩]).getD []) 0).offset = 8 + 16 * 1 := by
  decide

/-- **C2** (amended: the entry table rows are 18 bytes, so the first offset
is `8 + 18*count`, not `8 + 16*count`): the entry regions written by `pack`
tile the blob region exactly — `entries[0].offset = 8 + 18*count`,
`entries[i].offset + entries[i].length = entries[i+1].offset`, the last
region ends exactly at the end of the container, and no region extends past
the buffer's end. -/
theorem pack_tiling (records : List Rec) (buf : List Nat)
    (h : pack records = some buf) :
    (0 < records.length → (readEntry buf 0).offset = 8 + 18 * records.length) ∧
    (∀ i, i + 1 < records.length →
      (readEntry buf i).offset + (readEntry buf i).length = (readEntry buf (i + 1)).offset) ∧
    (0 < records.length →
      (readEntry buf (records.length - 1)).offset +
        (readEntry buf (records.length - 1)).length = buf.length) ∧
    (∀ i, i < records.length →
      (readEntry buf i).offset + (readEntry buf i).length ≤ buf.length) := by
  obtain ⟨-, -, -, h4, h5, -⟩ := pack_spec records buf h
  have hoff : ∀ i, i < records.length →
      (readEntry buf i).offset + (readEntry buf i).length =
        8 + 18 * records.length + lenSum (records.take (i + 1)) := by
    intro i hi
    rw [h5 i hi]
    unfold expEntry
    simp only
    rw [lenSum_take_succ records i hi]
    ring
  refine ⟨?_, ?_, ?_, ?_⟩
  · intro hpos
    rw [h5 0 hpos]
    rfl
  · intro i hi
    rw [hoff i (by omega), h5 (i + 1) hi]
    rfl
  · intro hpos
    rw [hoff (records.length - 1) (by omega)]
    rw [show records.length - 1 + 1 = records.length by omega, List.take_length, h4]
  · intro i hi
    rw [hoff i hi, h4]
    have := lenSum_take_le records (i + 1)
    omega

theorem pack_tiling_w :
    (readEntry rtBuf 0).offset = 8 + 18 * rtRecords.length ∧
    (readEntry rtBuf 0).offset + (readEntry rtBuf 0).length = (readEntry rtBuf 1).offset ∧
    (readEntry rtBuf 1).offset + (readEntry rtBuf 1).length = rtBuf.length := by
  have h := pack_tiling rtRecords rtBuf (by decide)
  exact ⟨h.1 (by decide), h.2.1 0 (by decide), h.2.2.1 (by decide)⟩

/-- One item of `dump_layer_filters.scan_pack`: the entry fields, the raw
payload bytes and the decoded sub-fields (the JSON `decode` dict, a pure
function of the bytes). -/
structure DumpItem where
  id : Nat
  type : Nat
  sub : Nat
  bytes : List Nat
  filterType : Nat
  cutoff : Nat
  q : Nat
  morphIndex : Nat
  morphDepth : Nat
  tilt : Int
  reserved : List Nat
  deriving Repr, DecidableEq

/-- Build the item for a matching `0x10/0x22` entry; `data[5]` signed as
`data[5] if data[5] < 128 else data[5]-256`, `reserved = data[6:14]`. -/
def mkDumpItem (en : Entry) (data : List Nat) : DumpItem :=
  { id := en.id, type := en.type, sub := en.sub, bytes := data,
    filterType := data.getD 0 0, cutoff := data.getD 1 0, q := data.getD 2 0,
    morphIndex := data.getD 3 0, morphDepth := data.getD 4 0,
    tilt := if data.getD 5 0 < 128 then (data.getD 5 0 : Int)
            else (data.getD 5 0 : Int) - 256,
    reserved := (data.drop 6).take 8 }

/-- The `for i in range(count)` loop of `dump_layer_filters.scan_pack`:
`i` is the current table index, the second argument counts the remaining
iterations.  `.error ()` models `struct.error` (table row past the end of
the buffer) or the `IndexError` the decode raises when the sliced payload
is shorter than 6 bytes. -/
def dumpLoop (b : List Nat) : Nat → Nat → Except Unit (List DumpItem)
  | _, 0 => .ok []
  | i, rem + 1 =>
    if b.length < 8 + 18 * i + 18 then .error ()
    else
      let en := readEntry b i
      if en.type = 0x10 ∧ en.sub = 0x22 ∧ en.length = 14 then
        let data := (b.drop en.offset).take en.length
        if data.length < 6 then .error ()
        else
          match dumpLoop b (i + 1) rem with
          | .ok rest => .ok (mkDumpItem en data :: rest)
          | .error e => .error e
      else dumpLoop b (i + 1) rem

/-- `scan_pack` from `dump_layer_filters.py` (returns `[]`, not `None`, on
an unrecognized container). -/
def scanPackDump (b : List Nat) : Except Unit (List DumpItem) :=
  if b.take 4 = MAGIC then
    if 8 ≤ b.length then
      if rd16 b 4 = 1 then dumpLoop b 0 (rd16 b 6)
      else .ok []
    else .error ()
  else .ok []

lemma dumpLoop_short : ∀ (rem i : Nat) (b : List Nat), 1 ≤ rem →
    b.length < 8 + 18 * (i + rem) → dumpLoop b i rem = .error () := by
  intro rem
  induction rem with
  | zero => intro i b h; omega
  | succ r ih =>
    intro i b _ hlen
    unfold dumpLoop
    split
    case isTrue => rfl
    case isFalse hge =>
      have hr : 1 ≤ r := by omega
      have hrec := ih (i + 1) b hr (by omega)
      simp only [hrec]
      split
      · split
        · rfl
        · rfl
      · rfl

/-- **C9 counterexample**: the claim says a buffer too short to contain the
declared header never raises, but on the 4-byte buffer consisting of the
magic alone both readers raise `struct.error` (modelled as `.error ()`)
instead of returning no results. -/
theorem scan_robustness_cex :
    scan_pack MAGIC = .error () ∧ scanPackDump MAGIC = .error () := ⟨rfl, rfl⟩

/-- **C9** (amended): on wrong magic, and on version ≠ 1 in a buffer long
enough for the 8-byte header, both readers return no results
(`None`/`[]`) and never raise; but a buffer with the correct magic that is
too short for the header, or too short for the declared entry table, makes
both readers raise `struct.error` — it does not return "no results". -/
theorem scan_robustness (b : List Nat) :
    (b.take 4 ≠ MAGIC → scan_pack b = .ok none ∧ scanPackDump b = .ok []) ∧
    (b.take 4 = MAGIC → 8 ≤ b.length → rd16 b 4 ≠ 1 →
      scan_pack b = .ok none ∧ scanPackDump b = .ok []) ∧
    (b.take 4 = MAGIC → b.length < 8 →
      scan_pack b = .error () ∧ scanPackDump b = .error ()) ∧
    (b.take 4 = MAGIC → 8 ≤ b.length → rd16 b 4 = 1 → rd16 b 6 ≠ 0 →
      b.length < 8 + 18 * rd16 b 6 →
      scan_pack b = .error () ∧ scanPackDump b = .error ()) := by
  refine ⟨?_, ?_, ?_, ?_⟩
  · intro hm
    constructor
    · unfold scan_pack; rw [if_neg hm]
    · unfold scanPackDump; rw [if_neg hm]
  · intro hm hlen hv
    constructor
    · unfold scan_pack; rw [if_pos hm, if_pos hlen, if_neg hv]
    · unfold scanPackDump; rw [if_pos hm, if_pos hlen, if_neg hv]
  · intro hm hlen
    have hnot : ¬ 8 ≤ b.length := by omega
    constructor
    · unfold scan_pack; rw [if_pos hm, if_neg hnot]
    · unfold scanPackDump; rw [if_pos hm, if_neg hnot]
  · intro hm hlen hv hc hshort
    constructor
    · unfold scan_pack
      rw [if_pos hm, if_pos hlen, if_pos hv, if_neg (by omega)]
    · unfold scanPackDump
      rw [if_pos hm, if_pos hlen, if_pos hv]
      exact dumpLoop_short (rd16 b 6) 0 b (by omega) (by omega)

theorem scan_robustness_w :
    scan_pack [1, 2, 3] = .ok none ∧ scanPackDump [1, 2, 3] = .ok [] :=
  (scan_robustness [1, 2, 3]).1 (by decide)

/-- Recognize a Preset-data continuation packet in `assemble_preset`
(`type == 0x10`, `sub in (0x02, 0x04)`, `len(data) >= 3`): returns the
14-bit sequence number `data[0] | (data[1] << 7)` and the payload
`data[2:-1]` (checksum byte dropped).  `sub` is `int(meta.get('sub') or
0)`, i.e. `recSub`. -/
def contPacket (e : Rec) : Option (Nat × List Nat) :=
  if e.type = 0x10 ∧ (recSub e = 0x02 ∨ recSub e = 0x04) ∧ 3 ≤ e.data.length then
    some (e.data.getD 0 0 ||| (e.data.getD 1 0 <<< 7), (e.data.drop 2).dropLast)
  else none

/-- The sequence of `(seq, payload)` insertions `assemble_preset` performs
into its `groups[0]` dict, in entry order. -/
def packetList (es : List Rec) : List (Nat × List Nat) := es.filterMap contPacket

/-- The value the Python dict holds for key `s` after all insertions: the
payload of the last packet with sequence number `s` (later insertions
overwrite earlier ones). -/
def lastVal (ps : List (Nat × List Nat)) (s : Nat) : List Nat :=
  ((ps.filter (fun p => p.1 == s)).getLast?.map Prod.snd).getD []

/-- `sorted(parts.keys())`: the distinct sequence numbers in ascending
order.  (`dedup` keeps one copy of each key; since the keys are then
sorted, the result is the same list Python gets by sorting its
insertion-ordered key view.) -/
def sortedKeys (ps : List (Nat × List Nat)) : List Nat :=
  List.insertionSort (· ≤ ·) (ps.map Prod.fst).dedup

/-- The assembled blob: for each key in ascending order, the dict's
payload, concatenated. -/
def assembledData (es : List Rec) : List Nat :=
  ((sortedKeys (packetList es)).map (lastVal (packetList es))).flatten

/-- `assemble_preset` from `sysex_pack.py`.  The Python code appends under
`if groups:` and `if assembled:`, which together hold exactly when the
assembled concatenation is non-empty (no packets gives an empty
concatenation, and a non-empty concatenation requires a packet).  Note a
packet with exactly 3 data bytes is collected into the dict with an empty
payload `data[2:-1]`: it alone leaves the concatenation empty and nothing
is appended. -/
def assemble_preset (es : List Rec) : List Rec :=
  if assembledData es = [] then es
  else es ++ [{ id := maxId es + 1, type := 0x10, flags := 0,
                meta := some { sub := some 0xFE, assembled := true },
                data := assembledData es }]

lemma lastVal_of_nodup : ∀ (pl : List (Nat × List Nat)),
    (pl.map Prod.fst).Nodup → ∀ p ∈ pl, lastVal pl p.1 = p.2 := by
  intro pl
  induction pl with
  | nil => intro _ p hp; simp at hp
  | cons q pl ih =>
    intro hnd p hp
    simp only [List.map_cons, List.nodup_cons] at hnd
    obtain ⟨hq, hnd'⟩ := hnd
    rcases List.mem_cons.mp hp with rfl | hp'
    · have hfilt : pl.filter (fun r => r.1 == p.1) = [] := by
        apply List.filter_eq_nil_iff.mpr
        intro r hr
        simp only [beq_iff_eq]
        intro hcontra
        exact hq (hcontra ▸ List.mem_map_of_mem Prod.fst hr)
      unfold lastVal
      simp [List.filter_cons, hfilt]
    · have hne : ¬ (q.1 == p.1) = true := by
        simp only [beq_iff_eq]
        intro hcontra
        exact hq (hcontra ▸ List.mem_map_of_mem Prod.fst hp')
      unfold lastVal at ih ⊢
      rw [List.filter_cons]
      simp only [hne, if_false]
      exact ih hnd' p hp'

lemma sortedKeys_sorted (pl : List (Nat × List Nat)) :
    List.Sorted (· ≤ ·) (sortedKeys pl) := List.sorted_insertionSort _ _

lemma sortedKeys_perm (pl : List (Nat × List Nat)) (h : (pl.map Prod.fst).Nodup) :
    List.Perm (sortedKeys pl) (pl.map Prod.fst) := by
  unfold sortedKeys
  rw [List.Nodup.dedup h]
  exact List.perm_insertionSort _ _

lemma sortedKeys_eq_of_perm (pl pl' : List (Nat × List Nat))
    (hperm : List.Perm pl pl') (h : (pl.map Prod.fst).Nodup) :
    sortedKeys pl = sortedKeys pl' := by
  have h' : (pl'.map Prod.fst).Nodup := (hperm.map Prod.fst).nodup h
  refine List.eq_of_perm_of_sorted ?_ (sortedKeys_sorted pl) (sortedKeys_sorted pl')
  exact ((sortedKeys_perm pl h).trans (hperm.map Prod.fst)).trans
    (sortedKeys_perm pl' h').symm

/-- A single continuation packet with exactly 3 data bytes: its (empty)
payload `data[2:-1]` is collected into the dict, yet nothing is
assembled. -/
def asmCexEs : List Rec := [⟨0, 0x10, 0, some { sub := some 0x02 }, [0, 0, 99]⟩]

/-- **C3 counterexample**: the claim says a record is appended "whenever at
least one payload was collected", with packet scope `data length >= 3`.
On a lone packet with exactly 3 data bytes a payload *is* collected (the
dict holds `{0: b''}`), but the concatenation is empty, Python's
`if assembled:` is falsy, and `assemble_preset` appends nothing. -/
theorem assemble_preset_cex :
    packetList asmCexEs = [(0, [])] ∧
    assemble_preset asmCexEs = asmCexEs := by decide

/-- **C3** (amended: the synthetic record is appended exactly when the
concatenated payload is non-empty; packets whose collected payload is
empty — exactly 3 data bytes — can leave the concatenation empty, and
then nothing is appended): given pairwise-distinct sequence numbers, the
assembled data is the concatenation of the packets' payloads in ascending
sequence-number order and is invariant under permutation of the input
records; when it is non-empty, `assemble_preset` appends exactly one
synthetic record (type `0x10`, subtype `0xFE`, `assembled = true`, id
`max(ids)+1`) carrying it, and when it is empty the record list is
returned unchanged. -/
theorem assemble_preset_spec (es es' : List Rec)
    (hnd : ((packetList es).map Prod.fst).Nodup)
    (hperm : List.Perm es es') :
    (∃ sorted, List.Perm (packetList es) sorted ∧
        List.Pairwise (fun p q : Nat × List Nat => p.1 < q.1) sorted ∧
        assembledData es = (sorted.map Prod.snd).flatten) ∧
    assembledData es' = assembledData es ∧
    (assembledData es ≠ [] →
      assemble_preset es = es ++ [{ id := maxId es + 1, type := 0x10, flags := 0,
                                    meta := some { sub := some 0xFE, assembled := true },
                                    data := assembledData es }]) ∧
    (assembledData es = [] → assemble_preset es = es) := by
  have hplperm : List.Perm (packetList es) (packetList es') := hperm.filterMap contPacket
  have hnd' : ((packetList es').map Prod.fst).Nodup := (hplperm.map Prod.fst).nodup hnd
  have hkeys : sortedKeys (packetList es) = sortedKeys (packetList es') :=
    sortedKeys_eq_of_perm _ _ hplperm hnd
  have h1 : List.Perm
      ((sortedKeys (packetList es)).map (fun s => (s, lastVal (packetList es) s)))
      (((packetList es).map Prod.fst).map (fun s => (s, lastVal (packetList es) s))) :=
    (sortedKeys_perm _ hnd).map _
  have h2 : ((packetList es).map Prod.fst).map
      (fun s => (s, lastVal (packetList es) s)) = packetList es := by
    rw [List.map_map]
    have hcong : ∀ p ∈ packetList es,
        ((fun s => (s, lastVal (packetList es) s)) ∘ Prod.fst) p = id p := by
      intro p hp
      simp only [Function.comp, id]
      rw [lastVal_of_nodup _ hnd p hp]
    rw [List.map_congr_left hcong, List.map_id]
  refine ⟨?_, ?_, ?_, ?_⟩
  · refine ⟨(sortedKeys (packetList es)).map
      (fun s => (s, lastVal (packetList es) s)), ?_, ?_, ?_⟩
    · have h3 : List.Perm
          (((packetList es).map Prod.fst).map (fun s => (s, lastVal (packetList es) s)))
          (packetList es) := by
        rw [h2]
      exact (h1.trans h3).symm
    · have hsortlt : List.Sorted (· < ·) (sortedKeys (packetList es)) :=
        List.Sorted.lt_of_le (sortedKeys_sorted _) ((sortedKeys_perm _ hnd).symm.nodup hnd)
      rw [List.pairwise_map]
      exact hsortlt
    · unfold assembledData
      rw [List.map_map]
      rfl
  · unfold assembledData
    rw [← hkeys]
    apply congrArg
    apply List.map_congr_left
    intro s hs
    have hs' : s ∈ (packetList es).map Prod.fst :=
      (sortedKeys_perm _ hnd).mem_iff.mp hs
    obtain ⟨p, hp, rfl⟩ := List.mem_map.mp hs'
    rw [lastVal_of_nodup _ hnd p hp,
      lastVal_of_nodup _ hnd' p (hplperm.mem_iff.mp hp)]
  · intro hne
    unfold assemble_preset
    rw [if_neg hne]
  · intro hemp
    unfold assemble_preset
    rw [if_pos hemp]

/-- Three continuation packets with sequence numbers 2, 0, 1, submitted in
that scrambled order. -/
def asmEx : List Rec :=
  [⟨0, 0x10, 0, some { sub := some 0x02 }, [2, 0, 20, 21, 99]⟩,
   ⟨1, 0x10, 0, some { sub := some 0x02 }, [0, 0, 10, 99]⟩,
   ⟨2, 0x10, 0, some { sub := some 0x04 }, [1, 0, 11, 12, 99]⟩]

/-- The same packets in a different submission order. -/
def asmExPerm : List Rec :=
  [⟨1, 0x10, 0, some { sub := some 0x02 }, [0, 0, 10, 99]⟩,
   ⟨2, 0x10, 0, some { sub := some 0x04 }, [1, 0, 11, 12, 99]⟩,
   ⟨0, 0x10, 0, some { sub := some 0x02 }, [2, 0, 20, 21, 99]⟩]

theorem assemble_preset_w :
    assembledData asmEx = [10, 11, 12, 20, 21] ∧
    assemble_preset asmEx = asmEx ++ [{ id := maxId asmEx + 1, type := 0x10, flags := 0,
                                        meta := some { sub := some 0xFE, assembled := true },
                                        data := assembledData asmEx }] ∧
    assembledData asmExPerm = assembledData asmEx := by
  have h := assemble_preset_spec asmEx asmExPerm (by decide) (by decide)
  exact ⟨by decide, h.2.2.1 (by decide), h.2.1⟩

/-- `_parse_preset_header_blob`'s decoded view: sub at byte 0, 14-bit
preset number at 1..2, u32 dataBytes at 3..6, ten counts at 7..16. -/
structure PresetHeader where
  sub : Nat
  preset : Nat
  dataBytes : Nat
  counts : List Nat
  deriving Repr, DecidableEq

/-- `hdr['counts']['LayFilt']` (= `counts[6]`). -/
def PresetHeader.layFilt (h : PresetHeader) : Nat := h.counts.getD 6 0

/-- `hdr['counts']['LayEnv']` (= `counts[8]`). -/
def PresetHeader.layEnv (h : PresetHeader) : Nat := h.counts.getD 8 0

/-- `_parse_preset_header_blob` from `sysex_pack.py`: fails on blobs
shorter than 17 bytes. -/
def parsePresetHeaderBlob (blob : List Nat) : Option PresetHeader :=
  if blob.length < 17 then none
  else some { sub := blob.getD 0 0,
              preset := blob.getD 1 0 ||| (blob.getD 2 0 <<< 8),
              dataBytes := blob.getD 3 0 ||| (blob.getD 4 0 <<< 8) |||
                (blob.getD 5 0 <<< 16) ||| (blob.getD 6 0 <<< 24),
              counts := (blob.drop 7).take 10 }

/-- The header predicate of `segment_assembled`: `type == 0x10` and
`meta.get('sub') == 0x01`. -/
def isHeaderRec (e : Rec) : Bool :=
  e.type == 0x10 && (e.meta.getD {}).sub == some 0x01

/-- The assembled-record predicate of `segment_assembled`: `type == 0x10`
and `meta.get('sub') == 0xFE`. -/
def isAssembledRec (e : Rec) : Bool :=
  e.type == 0x10 && (e.meta.getD {}).sub == some 0xFE

/-- The record `segment_assembled` appends for the `i`-th carved
layer-filter chunk. -/
def segRec (nid i : Nat) (chunk : List Nat) : Rec :=
  { id := nid + i, type := 0x10, flags := 0,
    meta := some { sub := some 0x22, heuristic := true, idx := some i },
    data := chunk }

/-- `segment_assembled` from `sysex_pack.py`: find the first header and
first assembled record; decode the header; carve the last
`LayFilt*14 + LayEnv*92` bytes of the assembled blob and emit one `0x22`
record per 14-byte filter chunk, ids continuing the running maximum. -/
def segment_assembled (es : List Rec) : List Rec :=
  match es.find? isHeaderRec, es.find? isAssembledRec with
  | some h, some a =>
    match parsePresetHeaderBlob h.data with
    | none => es
    | some hdr =>
      let need := hdr.layFilt * 14 + hdr.layEnv * 92
      if need = 0 ∨ a.data.length < need then es
      else
        let tail := a.data.drop (a.data.length - need)
        let filtBlob := tail.take (hdr.layFilt * 14)
        es ++ (List.range hdr.layFilt).map
          (fun i => segRec (maxId es + 1) i ((filtBlob.drop (i * 14)).take 14))
  | _, _ => es

lemma chunk_take_eq (tail : List Nat) (L i : Nat) (hi : i < L) :
    ((tail.take (L * 14)).drop (i * 14)).take 14 = (tail.drop (i * 14)).take 14 := by
  rw [List.drop_take, List.take_take]
  congr 1
  omega

/-- **C4** (segmenter exactness): with a header record decoding to counts
`LayFilt`, `LayEnv` and an assembled record whose blob is long enough,
`segment_assembled` appends exactly `LayFilt` records (type `0x10`, sub
`0x22`, heuristic flag, index `i`, ids continuing the running maximum)
whose data is exactly the 14-byte slice `tail[i*14:(i+1)*14]` of the last
`need` bytes of the assembled blob, each of length exactly 14. -/
theorem segment_assembled_spec (es : List Rec) (h a : Rec) (hdr : PresetHeader)
    (hh : es.find? isHeaderRec = some h)
    (ha : es.find? isAssembledRec = some a)
    (hp : parsePresetHeaderBlob h.data = some hdr)
    (hpos : 0 < hdr.layFilt * 14 + hdr.layEnv * 92)
    (hle : hdr.layFilt * 14 + hdr.layEnv * 92 ≤ a.data.length) :
    segment_assembled es = es ++ (List.range hdr.layFilt).map (fun i =>
      segRec (maxId es + 1) i
        (((a.data.drop (a.data.length - (hdr.layFilt * 14 + hdr.layEnv * 92))).drop
          (i * 14)).take 14)) ∧
    ∀ i, i < hdr.layFilt →
      (((a.data.drop (a.data.length - (hdr.layFilt * 14 + hdr.layEnv * 92))).drop
        (i * 14)).take 14).length = 14 := by
  constructor
  · unfold segment_assembled
    rw [hh, ha]
    dsimp only
    rw [hp]
    dsimp only
    rw [if_neg (by omega)]
    congr 1
    apply List.map_congr_left
    intro i hi
    rw [chunk_take_eq _ _ i (List.mem_range.mp hi)]
  · intro i hi
    have htail : (a.data.drop
        (a.data.length - (hdr.layFilt * 14 + hdr.layEnv * 92))).length =
        hdr.layFilt * 14 + hdr.layEnv * 92 := by
      rw [List.length_drop]
      omega
    rw [List.length_take, List.length_drop, htail]
    have : i * 14 + 14 ≤ hdr.layFilt * 14 := by
      have : i + 1 ≤ hdr.layFilt := hi
      calc i * 14 + 14 = (i + 1) * 14 := by ring
        _ ≤ hdr.layFilt * 14 := Nat.mul_le_mul_right 14 this
    omega

/-- A 17-byte preset header blob with `LayFilt = 3` (`blob[13]`) and
`LayEnv = 0` (`blob[15]`). -/
def segHdrBytes : List Nat := [1, 0, 0, 42, 0, 0, 0, 0, 0, 0, 0, 0, 0, 3, 0, 0, 0]

/-- The decoded view of `segHdrBytes`. -/
def segHdr : PresetHeader := ⟨1, 0, 42, [0, 0, 0, 0, 0, 0, 3, 0, 0, 0]⟩

/-- The 42-byte assembled blob used to instantiate the segmenter theorem. -/
def segBlob : List Nat := List.range 42

/-- Header record for the segmenter example. -/
def segHdrRec : Rec := ⟨0, 0x10, 0, some { sub := some 0x01 }, segHdrBytes⟩

/-- Assembled record for the segmenter example. -/
def segAsmRec : Rec :=
  ⟨1, 0x10, 0, some { sub := some 0xFE, assembled := true }, segBlob⟩

/-- Record collection for the segmenter example. -/
def segEx : List Rec := [segHdrRec, segAsmRec]

theorem segment_assembled_spec_w :
    segHdr.layFilt = 3 ∧ segAsmRec.data.length = 42 ∧
    segment_assembled segEx = segEx ++ (List.range segHdr.layFilt).map (fun i =>
      segRec (maxId segEx + 1) i
        (((segAsmRec.data.drop (segAsmRec.data.length -
          (segHdr.layFilt * 14 + segHdr.layEnv * 92))).drop (i * 14)).take 14)) ∧
    (((segAsmRec.data.drop (segAsmRec.data.length -
      (segHdr.layFilt * 14 + segHdr.layEnv * 92))).drop (2 * 14)).take 14).length = 14 := by
  have h := segment_assembled_spec segEx segHdrRec segAsmRec segHdr
    (by decide) (by decide) (by decide) (by decide) (by decide)
  exact ⟨by decide, by decide, h.1, h.2 2 (by decide)⟩

/-- Collection with *two* header records (plus one assembled record with a
long-enough blob): the code does not require uniqueness, it picks the
first header and proceeds. -/
def segCexEs : List Rec :=
  [⟨0, 0x10, 0, some { sub := some 0x01 },
    [1, 0, 0, 14, 0, 0, 0, 0, 0, 0, 0, 0, 0, 1, 0, 0, 0]⟩,
   ⟨1, 0x10, 0, some { sub := some 0x01 },
    [1, 0, 0, 14, 0, 0, 0, 0, 0, 0, 0, 0, 0, 1, 0, 0, 0]⟩,
   ⟨2, 0x10, 0, some { sub := some 0xFE },
    [9, 9, 9, 9, 9, 9, 9, 9, 9, 9, 9, 9, 9, 9]⟩]

/-- **C8 counterexample**: the claim says `segment_assembled` requires
*exactly one* header record and returns the list unchanged otherwise; but
with two header records present the code still carves (it uses the first
match), so the result is not the unchanged input. -/
theorem segment_assembled_noop_cex :
    (segCexEs.filter isHeaderRec).length = 2 ∧
    (segCexEs.filter isAssembledRec).length = 1 ∧
    segment_assembled segCexEs ≠ segCexEs := by decide

/-- **C8** (amended: the code requires *at least* one header and one
assembled record — it uses the first of each — rather than exactly one):
`segment_assembled` returns its input unchanged when no header record or
no assembled record is present, when the header data is shorter than 17
bytes, when `need = LayFilt*14 + LayEnv*92` is zero, and when `need`
exceeds the assembled blob's length. -/
theorem segment_assembled_noop (es : List Rec) :
    (es.find? isHeaderRec = none → segment_assembled es = es) ∧
    (es.find? isAssembledRec = none → segment_assembled es = es) ∧
    (∀ h a, es.find? isHeaderRec = some h → es.find? isAssembledRec = some a →
      (h.data.length < 17 → segment_assembled es = es) ∧
      (∀ hdr, parsePresetHeaderBlob h.data = some hdr →
        hdr.layFilt * 14 + hdr.layEnv * 92 = 0 ∨
          a.data.length < hdr.layFilt * 14 + hdr.layEnv * 92 →
        segment_assembled es = es)) := by
  refine ⟨?_, ?_, ?_⟩
  · intro hn
    unfold segment_assembled
    rw [hn]
  · intro hn
    unfold segment_assembled
    rw [hn]
    cases es.find? isHeaderRec <;> rfl
  · intro h a hh ha
    constructor
    · intro hshort
      unfold segment_assembled
      rw [hh, ha]
      dsimp only
      have : parsePresetHeaderBlob h.data = none := by
        unfold parsePresetHeaderBlob
        rw [if_pos hshort]
      rw [this]
    · intro hdr hp hbad
      unfold segment_assembled
      rw [hh, ha]
      dsimp only
      rw [hp]
      dsimp only
      rw [if_pos (by omega)]

/-- Collection whose (unique) header record is only 5 bytes long. -/
def segShortEs : List Rec :=
  [⟨0, 0x10, 0, some { sub := some 0x01 }, [1, 2, 3, 4, 5]⟩,
   ⟨1, 0x10, 0, some { sub := some 0xFE }, [9, 9, 9, 9, 9, 9, 9]⟩]

theorem segment_assembled_noop_w :
    segment_assembled segShortEs = segShortEs :=
  ((segment_assembled_noop segShortEs).2.2
    ⟨0, 0x10, 0, some { sub := some 0x01 }, [1, 2, 3, 4, 5]⟩
    ⟨1, 0x10, 0, some { sub := some 0xFE }, [9, 9, 9, 9, 9, 9, 9]⟩
    (by decide) (by decide)).1 (by decide)

/-- Device-spec fields used by `_proteus_parse` (from the JSON spec file):
`manufacturerId`, `familyId`, `editor`, and whether
`spec['checksum']['type'] == 'ones_complement_7bit'`. -/
structure DevSpec where
  manufacturerId : List Nat
  familyId : Option Nat
  editor : Option Nat
  checksumOnesComplement : Bool
  deriving Repr, DecidableEq

/-- Python `(~s) & 0x7F`: two's-complement bitwise NOT masked to 7 bits. -/
def not7 (s : Nat) : Nat := ((-(s : Int) - 1) % 128).toNat

/-- The dict `_proteus_parse` returns (minus nothing; `data` included). -/
structure PMeta where
  family : Nat
  dev : Nat
  cmd : Nat
  sub : Option Nat
  validChecksum : Bool
  data : List Nat
  deriving Repr, DecidableEq

/-- `sub = data[0] if len(data) >= 1 and cmd in (0x10, 0x11, 0x18, 0x1A,
0x1B, 0x61) else None`. -/
def subOf (cmd : Nat) (data : List Nat) : Option Nat :=
  if 1 ≤ data.length ∧ (cmd = 0x10 ∨ cmd = 0x11 ∨ cmd = 0x18 ∨ cmd = 0x1A ∨
      cmd = 0x1B ∨ cmd = 0x61) then
    some (data.getD 0 0)
  else none

/-- `_proteus_parse` from `sysex_pack.py`.  Returns `none` where Python
returns `None`; the checksum mismatch branch keeps the record but flags
`validChecksum = False`. -/
def proteusParse (payload : List Nat) (spec : DevSpec) : Option PMeta :=
  if spec.manufacturerId = [] ∨ spec.familyId = none ∨ spec.editor = none then none
  else if payload.length < spec.manufacturerId.length + 4 then none
  else if spec.manufacturerId.isPrefixOf payload then
    let off := spec.manufacturerId.length
    let family := payload.getD off 0
    let dev := payload.getD (off + 1) 0
    let ed := payload.getD (off + 2) 0
    let cmd := payload.getD (off + 3) 0
    let data := payload.drop (off + 4)
    let sub := subOf cmd data
    if some family ≠ spec.familyId ∨ some ed ≠ spec.editor then none
    else if spec.checksumOnesComplement ∧ 1 ≤ data.length then
      if data.getLast?.getD 0 &&& 0x7F ≠ 0x7F then
        if not7 (((data.dropLast.map (· &&& 0x7F)).sum) &&& 0x7F) ≠
            data.getLast?.getD 0 &&& 0x7F then
          some ⟨family, dev, cmd, sub, false, data⟩
        else some ⟨family, dev, cmd, sub, true, data⟩
      else some ⟨family, dev, cmd, sub, true, data⟩
    else some ⟨family, dev, cmd, sub, true, data⟩
  else none

/-- **C6** (checksum validation): when the spec's checksum type is
`ones_complement_7bit`, the message body is non-empty and the trailer is
not the `0x7F` sentinel, the parser compares `(~sum(b & 0x7F for b in
data[:-1])) & 0x7F` with `data[-1] & 0x7F`.  A mismatch yields a record
flagged `validChecksum = false` that is still kept (never dropped); a
match, or a sentinel trailer, yields `validChecksum = true`. -/
theorem proteus_checksum (spec : DevSpec) (payload : List Nat)
    (hm : spec.manufacturerId ≠ [])
    (hlen : spec.manufacturerId.length + 4 ≤ payload.length)
    (hpre : spec.manufacturerId.isPrefixOf payload = true)
    (hfam : spec.familyId = some (payload.getD spec.manufacturerId.length 0))
    (hed : spec.editor = some (payload.getD (spec.manufacturerId.length + 2) 0))
    (hchk : spec.checksumOnesComplement = true)
    (hne : payload.drop (spec.manufacturerId.length + 4) ≠ []) :
    ∀ data exp chk,
      data = payload.drop (spec.manufacturerId.length + 4) →
      exp = data.getLast?.getD 0 &&& 0x7F →
      chk = not7 (((data.dropLast.map (· &&& 0x7F)).sum) &&& 0x7F) →
      ((exp ≠ 0x7F → chk ≠ exp → proteusParse payload spec =
          some ⟨payload.getD spec.manufacturerId.length 0,
                payload.getD (spec.manufacturerId.length + 1) 0,
                payload.getD (spec.manufacturerId.length + 3) 0,
                subOf (payload.getD (spec.manufacturerId.length + 3) 0) data,
                false, data⟩) ∧
       (exp ≠ 0x7F → chk = exp → proteusParse payload spec =
          some ⟨payload.getD spec.manufacturerId.length 0,
                payload.getD (spec.manufacturerId.length + 1) 0,
                payload.getD (spec.manufacturerId.length + 3) 0,
                subOf (payload.getD (spec.manufacturerId.length + 3) 0) data,
                true, data⟩) ∧
       (exp = 0x7F → proteusParse payload spec =
          some ⟨payload.getD spec.manufacturerId.length 0,
                payload.getD (spec.manufacturerId.length + 1) 0,
                payload.getD (spec.manufacturerId.length + 3) 0,
                subOf (payload.getD (spec.manufacturerId.length + 3) 0) data,
                true, data⟩)) := by
  intro data exp chk hdata hexp hchk2
  have hd1 : 1 ≤ data.length := by
    cases hd : data with
    | nil => exact absurd (hdata ▸ hd) hne
    | cons x xs => simp [hd]
  have hred : proteusParse payload spec =
      (if data.getLast?.getD 0 &&& 0x7F ≠ 0x7F then
        if not7 (((data.dropLast.map (· &&& 0x7F)).sum) &&& 0x7F) ≠
            data.getLast?.getD 0 &&& 0x7F then
          some ⟨payload.getD spec.manufacturerId.length 0,
                payload.getD (spec.manufacturerId.length + 1) 0,
                payload.getD (spec.manufacturerId.length + 3) 0,
                subOf (payload.getD (spec.manufacturerId.length + 3) 0) data,
                false, data⟩
        else some ⟨payload.getD spec.manufacturerId.length 0,
                payload.getD (spec.manufacturerId.length + 1) 0,
                payload.getD (spec.manufacturerId.length + 3) 0,
                subOf (payload.getD (spec.manufacturerId.length + 3) 0) data,
                true, data⟩
      else some ⟨payload.getD spec.manufacturerId.length 0,
                payload.getD (spec.manufacturerId.length + 1) 0,
                payload.getD (spec.manufacturerId.length + 3) 0,
                subOf (payload.getD (spec.manufacturerId.length + 3) 0) data,
                true, data⟩) := by
    unfold proteusParse
    rw [if_neg (by simp [hm, hfam, hed]), if_neg (by omega), if_pos hpre]
    simp only [← hdata]
    rw [if_neg (by simp [hfam, hed]), if_pos ⟨hchk, hd1⟩]
  refine ⟨?_, ?_, ?_⟩
  · intro h1 h2
    rw [hred, if_pos (hexp ▸ h1), if_pos (by rw [← hchk2, ← hexp]; exact h2)]
  · intro h1 h2
    rw [hred, if_pos (hexp ▸ h1), if_neg (by rw [← hchk2, ← hexp]; simp [h2])]
  · intro h1
    rw [hred, if_neg (by rw [← hexp]; simp [h1])]

/-- Example device spec: manufacturer `[0x18]`, family 4, editor 5,
ones-complement checksum. -/
def pspecEx : DevSpec := ⟨[0x18], some 4, some 5, true⟩

theorem proteus_checksum_w :
    proteusParse [0x18, 4, 0, 5, 0x10, 0x10, 0x20, 0x30, 0x1F] pspecEx =
      some ⟨4, 0, 0x10, some 0x10, true, [0x10, 0x20, 0x30, 0x1F]⟩ ∧
    proteusParse [0x18, 4, 0, 5, 0x10, 0x10, 0x20, 0x30, 0x1E] pspecEx =
      some ⟨4, 0, 0x10, some 0x10, false, [0x10, 0x20, 0x30, 0x1E]⟩ := by
  constructor
  · have h := (proteus_checksum pspecEx [0x18, 4, 0, 5, 0x10, 0x10, 0x20, 0x30, 0x1F]
      (by decide) (by decide) (by decide) (by decide) (by decide) (by decide) (by decide)
      [0x10, 0x20, 0x30, 0x1F] 0x1F 0x1F (by decide) (by decide) (by decide)).2.1
      (by decide) (by decide)
    exact h.trans (by decide)
  · have h := (proteus_checksum pspecEx [0x18, 4, 0, 5, 0x10, 0x10, 0x20, 0x30, 0x1E]
      (by decide) (by decide) (by decide) (by decide) (by decide) (by decide) (by decide)
      [0x10, 0x20, 0x30, 0x1E] 0x1E 0x1F (by decide) (by decide) (by decide)).1
      (by decide) (by decide)
    exact h.trans (by decide)

/-- The inner loop of `unpack_7bit` (`syx_tools.py`): `for k in range(7)`
over the data bytes of one group, output byte `k` is
`b | (((msb >> k) & 1) << 7)`.  The index argument is the current `k`. -/
def decodeGroup (msb : Nat) : Nat → List Nat → List Nat
  | _, [] => []
  | k, b :: bs => (b ||| (((msb >>> k) &&& 1) <<< 7)) :: decodeGroup msb (k + 1) bs

/-- `unpack_7bit` from `tools/extraction/syx_tools.py`: consume one lead
byte, decode up to 7 following data bytes, repeat. -/
def unpack_7bit : List Nat → List Nat
  | [] => []
  | msb :: rest => decodeGroup msb 0 (rest.take 7) ++ unpack_7bit (rest.drop 7)
termination_by l => l.length
decreasing_by simp [List.length_drop]; omega

/-- The per-message branch of `split_and_unpack`: if any core byte has the
high bit set the core is kept as-is, else it is 7-bit unpacked. -/
def unpackCore (core : List Nat) : List Nat :=
  if core.any (fun b => b &&& 0x80 != 0) then core else unpack_7bit core

lemma decodeGroup_length (msb : Nat) : ∀ (k : Nat) (ds : List Nat),
    (decodeGroup msb k ds).length = ds.length := by
  intro k ds
  induction ds generalizing k with
  | nil => rfl
  | cons b bs ih => simp [decodeGroup, ih]

lemma decodeGroup_getD (msb : Nat) : ∀ (ds : List Nat) (j k : Nat), k < ds.length →
    (decodeGroup msb j ds).getD k 0 = ds.getD k 0 ||| (((msb >>> (j + k)) &&& 1) <<< 7) := by
  intro ds
  induction ds with
  | nil => intro j k h; simp at h
  | cons b bs ih =>
    intro j k h
    cases k with
    | zero => simp [decodeGroup]
    | succ k =>
      simp only [decodeGroup, List.getD_cons_succ]
      rw [ih (j + 1) k (by simpa using h), show j + 1 + k = j + (k + 1) from by omega]

lemma unpack_7bit_length : ∀ l : List Nat, (unpack_7bit l).length ≤ l.length
  | [] => by simp [unpack_7bit]
  | msb :: rest => by
    have ih := unpack_7bit_length (rest.drop 7)
    rw [unpack_7bit]
    rw [List.length_append, List.length_cons, decodeGroup_length]
    simp only [List.length_take, List.length_drop] at ih ⊢
    omega
termination_by l => l.length
decreasing_by simp [List.length_drop]; omega

/-- **C7** (payload unpacker): if any core byte has its high bit set the
unpacker returns the input unchanged (hence is idempotent on already-dense
data); otherwise it decodes consecutive groups of up to 8 bytes where
output byte `k` of a group is `data[k] | (((leadByte >> k) & 1) << 7)`, a
trailing group shorter than 2 bytes contributes no output, and the output
is never longer than the input. -/
theorem unpack_spec :
    (∀ core : List Nat, core.any (fun b => b &&& 0x80 != 0) = true →
      unpackCore core = core ∧ unpackCore (unpackCore core) = unpackCore core) ∧
    (∀ (msb : Nat) (ds : List Nat), ds.length ≤ 7 →
      unpack_7bit (msb :: ds) = decodeGroup msb 0 ds) ∧
    (∀ (msb : Nat) (ds t : List Nat), ds.length = 7 →
      unpack_7bit (msb :: (ds ++ t)) = decodeGroup msb 0 ds ++ unpack_7bit t) ∧
    (∀ (msb : Nat) (ds : List Nat) (k : Nat), k < ds.length →
      (decodeGroup msb 0 ds).getD k 0 = ds.getD k 0 ||| (((msb >>> k) &&& 1) <<< 7)) ∧
    (∀ msb : Nat, unpack_7bit [msb] = []) ∧
    (∀ l : List Nat, (unpack_7bit l).length ≤ l.length) ∧
    (∀ core : List Nat, (unpackCore core).length ≤ core.length) := by
  refine ⟨?_, ?_, ?_, ?_, ?_, unpack_7bit_length, ?_⟩
  · intro core hh
    have h1 : unpackCore core = core := by unfold unpackCore; rw [if_pos hh]
    exact ⟨h1, by rw [h1, h1]⟩
  · intro msb ds h
    rw [unpack_7bit, List.take_of_length_le h, List.drop_eq_nil_of_le h]
    simp [unpack_7bit]
  · intro msb ds t h
    rw [unpack_7bit]
    have h1 : (ds ++ t).take 7 = ds := by
      rw [← h]; exact List.take_left ds t
    have h2 : (ds ++ t).drop 7 = t := by
      rw [← h]; exact List.drop_left ds t
    rw [h1, h2]
  · intro msb ds k hk
    have := decodeGroup_getD msb ds 0 k hk
    simpa using this
  · intro msb
    rw [unpack_7bit]
    simp [decodeGroup, unpack_7bit]
  · intro core
    unfold unpackCore
    split
    · exact le_refl _
    · exact unpack_7bit_length core

theorem unpack_spec_w :
    unpackCore [0x81, 3, 5] = [0x81, 3, 5] ∧
    unpack_7bit [0b0000010, 3, 5] = decodeGroup 0b0000010 0 [3, 5] ∧
    decodeGroup 0b0000010 0 [3, 5] = [3, 0x85] ∧
    unpack_7bit [9] = [] := by
  refine ⟨(unpack_spec.1 [0x81, 3, 5] (by decide)).1,
    unpack_spec.2.1 0b0000010 [3, 5] (by decide), by decide, unpack_spec.2.2.2.2.1 9⟩

/-- Python `max(lo, min(hi, x))`. -/
noncomputable def clampR (lo hi x : ℝ) : ℝ := max lo (min hi x)

/-- `poles_to_biquad_coeffs` from `sysex_pack.py`, over the reals:
`a1 = -2·r·cos θ` and `a2 = r²` (then clamped to `[-1.999, 1.999]` and
`[-0.999, 0.999]` respectively), `b0 = (1-r)·0.5`, `b1 = 0`, `b2 = -b0`.
The Python code computes in IEEE-754 doubles; the claim is about the
underlying real-valued formulas, which is what we model. -/
noncomputable def poles_to_biquad_coeffs (r θ : ℝ) : ℝ × ℝ × ℝ × ℝ × ℝ :=
  ((1 - r) * 0.5, 0, -((1 - r) * 0.5),
    clampR (-1.999) 1.999 (-2 * r * Real.cos θ),
    clampR (-0.999) 0.999 (r * r))

lemma abs_clamp_le (c x : ℝ) (hc : 0 ≤ c) : |clampR (-c) c x| ≤ c := by
  unfold clampR
  rw [abs_le]
  constructor
  · exact le_max_left _ _
  · exact max_le (by linarith) (min_le_left _ _)

lemma abs_clamp_le_abs (c x : ℝ) (hc : 0 ≤ c) : |clampR (-c) c x| ≤ |x| := by
  unfold clampR
  rcases le_total x 0 with hx | hx
  · rw [min_eq_right (by linarith)]
    rcases le_total x (-c) with hxc | hxc
    · rw [max_eq_left hxc, abs_of_nonpos (by linarith), abs_of_nonpos hx]
      linarith
    · rw [max_eq_right hxc]
  · rcases le_total x c with hxc | hxc
    · rw [min_eq_right hxc, max_eq_right (by linarith)]
    · rw [min_eq_left hxc, max_eq_right (by linarith), abs_of_nonneg hc,
        abs_of_nonneg hx]
      linarith

/-- **C5 counterexample**: at `r = 0.9995`, `θ = 0` the clamps make
`|a1| = 1.999 = 1 + a2`, so the section sits *on* the boundary of the
stability triangle and the claimed strict inequality `|a1| < 1 + a2`
fails. -/
theorem biquad_stability_cex :
    (0 : ℝ) < 0.9995 ∧ (0.9995 : ℝ) < 1 ∧
    ¬ (|(poles_to_biquad_coeffs 0.9995 0).2.2.2.1| <
        1 + (poles_to_biquad_coeffs 0.9995 0).2.2.2.2) := by
  refine ⟨by norm_num, by norm_num, ?_⟩
  have e1 : (poles_to_biquad_coeffs 0.9995 0).2.2.2.1 = -1.999 := by
    show clampR (-1.999) 1.999 (-2 * 0.9995 * Real.cos 0) = -1.999
    rw [Real.cos_zero]
    unfold clampR
    rw [show (-2 * 0.9995 * 1 : ℝ) = -1.999 by norm_num,
      min_eq_right (by norm_num), max_eq_right le_rfl]
  have e2 : (poles_to_biquad_coeffs 0.9995 0).2.2.2.2 = 0.999 := by
    show clampR (-0.999) 0.999 ((0.9995 : ℝ) * 0.9995) = 0.999
    unfold clampR
    rw [min_eq_left (by norm_num), max_eq_right (by norm_num)]
  rw [e1, e2]
  norm_num
  exact le_abs_self _

/-- **C5** (amended: the stability bound on `a1` is non-strict — the
clamps allow `|a1| = 1 + a2` exactly on the boundary, e.g. at
`r = 0.9995, θ = 0`): for every `r ∈ (0,1)` and every `θ`, the generated
section satisfies `|a2| < 1` and `|a1| ≤ 1 + a2`. -/
theorem biquad_stability (r θ : ℝ) (h0 : 0 < r) (h1 : r < 1) :
    |(poles_to_biquad_coeffs r θ).2.2.2.2| < 1 ∧
    |(poles_to_biquad_coeffs r θ).2.2.2.1| ≤
      1 + (poles_to_biquad_coeffs r θ).2.2.2.2 := by
  have hrr : (0 : ℝ) ≤ r * r := mul_self_nonneg r
  have hmin : (0 : ℝ) ≤ min 0.999 (r * r) := le_min (by norm_num) hrr
  have ha2 : (poles_to_biquad_coeffs r θ).2.2.2.2 = min 0.999 (r * r) := by
    show clampR (-0.999) 0.999 (r * r) = min 0.999 (r * r)
    unfold clampR
    exact max_eq_right (by linarith)
  have hxle : |(-2 * r * Real.cos θ)| ≤ 2 * r := by
    rw [abs_mul]
    have h2 : |(-2 * r)| = 2 * r := by
      rw [abs_of_nonpos (by linarith)]
      ring
    rw [h2]
    exact mul_le_of_le_one_right (by linarith) (Real.abs_cos_le_one θ)
  have ha1x : |(poles_to_biquad_coeffs r θ).2.2.2.1| ≤ |(-2 * r * Real.cos θ)| := by
    show |clampR (-1.999) 1.999 (-2 * r * Real.cos θ)| ≤ _
    exact abs_clamp_le_abs 1.999 _ (by norm_num)
  have ha1c : |(poles_to_biquad_coeffs r θ).2.2.2.1| ≤ 1.999 := by
    show |clampR (-1.999) 1.999 (-2 * r * Real.cos θ)| ≤ _
    exact abs_clamp_le 1.999 _ (by norm_num)
  constructor
  · rw [ha2, abs_of_nonneg hmin]
    have := min_le_left (0.999 : ℝ) (r * r)
    linarith
  · rw [ha2]
    rcases le_total (r * r) 0.999 with hc | hc
    · rw [min_eq_right hc]
      have h2r : 2 * r ≤ 1 + r * r := by nlinarith [sq_nonneg (1 - r)]
      linarith [ha1x.trans hxle]
    · rw [min_eq_left hc]
      linarith

theorem biquad_stability_w :
    |(poles_to_biquad_coeffs (1/2) 0).2.2.2.2| < 1 ∧
    |(poles_to_biquad_coeffs (1/2) 0).2.2.2.1| ≤
      1 + (poles_to_biquad_coeffs (1/2) 0).2.2.2.2 :=
  biquad_stability (1/2) 0 (by norm_num) (by norm_num)

/-- One frame of `canonize`: Python frame index `idx` plus frame bytes.
The payload is `f[1:-1]` when `len(f) >= 2`, else `b''`; with a spec whose
`familyId` is set, the frame is parsed and dropped (`none`) when the parse
fails; both kept branches assign `id := idx`. -/
def canonizeOne (spec : Option DevSpec) (i : Nat) (f : List Nat) : Option Rec :=
  let payload := if 2 ≤ f.length then (f.drop 1).dropLast else []
  match spec with
  | some s =>
    if s.familyId ≠ none then
      match proteusParse payload s with
      | none => none
      | some m => some { id := i, type := m.cmd, flags := 0,
                         meta := some { sub := m.sub,
                                        validChecksum := some m.validChecksum,
                                        family := some m.family,
                                        dev := some m.dev },
                         data := m.data }
    else some { id := i, type := 0, flags := 0, meta := none, data := payload }
  | none => some { id := i, type := 0, flags := 0, meta := none, data := payload }

/-- The `for idx, f in enumerate(frames)` loop of `canonize`. -/
def canonizeGo (spec : Option DevSpec) : Nat → List (List Nat) → List Rec
  | _, [] => []
  | i, f :: fs =>
    match canonizeOne spec i f with
    | some r => r :: canonizeGo spec (i + 1) fs
    | none => canonizeGo spec (i + 1) fs

/-- `canonize` from `sysex_pack.py`. -/
def canonize (frames : List (List Nat)) (spec : Option DevSpec) : List Rec :=
  canonizeGo spec 0 frames

/-- The shared Z-plane model table (`models.json`); `has name` models
`name in models['models']`. -/
structure Models where
  has : String → Bool

/-- `['vowel_pair', 'bell_pair', 'low_pair'][k]`. -/
def zmfName (k : Nat) : String :=
  if k = 0 then "vowel_pair" else if k = 1 then "bell_pair" else "low_pair"

/-- Does `augment_with_zmf1` emit a ZMF1 entry for `e`? (`type == 0x10`,
`meta sub == 0x22`, at least 14 data bytes, selected model present). -/
def zmfMatch (m : Models) (e : Rec) : Bool :=
  e.type == 0x10 && (e.meta.getD {}).sub == some 0x22 &&
    decide (14 ≤ e.data.length) && m.has (zmfName (e.data.getD 0 0 % 3))

/-- The ZMF1 record appended for a matching `0x22` entry.  The payload
comes from `generate_zmf1_entry`, which serializes interpolated biquad
coefficients as IEEE-754 floats; that byte generation is abstracted as the
parameter `gen` (model index and model name to bytes). -/
def zmfRec (gen : Nat → String → List Nat) (nid srcId k : Nat) : Rec :=
  { id := nid, type := 0x5A4D, flags := 0x4631,
    meta := some { zmf1 := true, model := some (zmfName k), sourceId := some srcId },
    data := gen k (zmfName k) }

/-- The `for entry in entries` loop of `augment_with_zmf1`: `next_id`
advances only when an entry is actually appended. -/
def augGo (m : Models) (gen : Nat → String → List Nat) : List Rec → Nat → List Rec
  | [], _ => []
  | e :: es, nid =>
    if zmfMatch m e then
      zmfRec gen nid e.id (e.data.getD 0 0 % 3) :: augGo m gen es (nid + 1)
    else augGo m gen es nid

/-- `augment_with_zmf1` from `sysex_pack.py` (no-op when `models.json` is
unavailable). -/
def augment_with_zmf1 (models : Option Models) (gen : Nat → String → List Nat)
    (es : List Rec) : List Rec :=
  match models with
  | none => es
  | some m => es ++ augGo m gen es (maxId es + 1)

/-- The record pipeline `main` runs after frame extraction:
`canonize`, `assemble_preset`, `segment_assembled`, `augment_with_zmf1`. -/
def pipeline (frames : List (List Nat)) (spec : Option DevSpec)
    (models : Option Models) (gen : Nat → String → List Nat) : List Rec :=
  augment_with_zmf1 models gen (segment_assembled (assemble_preset (canonize frames spec)))

lemma foldr_max_init (l : List Nat) (b : Nat) : l.foldr max b = max (l.foldr max 0) b := by
  induction l with
  | nil => simp
  | cons x l ih => simp [List.foldr_cons, ih, Nat.max_assoc]

lemma id_le_maxId : ∀ (es : List Rec), ∀ r ∈ es, r.id ≤ maxId es := by
  intro es
  induction es with
  | nil => intro r hr; simp at hr
  | cons e es ih =>
    intro r hr
    unfold maxId at ih ⊢
    simp only [List.map_cons, List.foldr_cons]
    rcases List.mem_cons.mp hr with rfl | h'
    · exact le_max_left _ _
    · exact le_trans (ih r h') (le_max_right _ _)

lemma maxId_append (es fs : List Rec) : maxId (es ++ fs) = max (maxId es) (maxId fs) := by
  unfold maxId
  rw [List.map_append, List.foldr_append, foldr_max_init]

/-- A stage of the pipeline only appends records with fresh, strictly
increasing ids. -/
def ExtendsIds (es es' : List Rec) : Prop :=
  ∃ extra, es' = es ++ extra ∧ (∀ r ∈ extra, maxId es < r.id) ∧
    List.Sorted (· < ·) (extra.map (·.id))

lemma ExtendsIds.refl (es : List Rec) : ExtendsIds es es :=
  ⟨[], by simp, by simp, by simp⟩

lemma ExtendsIds.trans {es es' es'' : List Rec}
    (h1 : ExtendsIds es es') (h2 : ExtendsIds es' es'') : ExtendsIds es es'' := by
  obtain ⟨x1, rfl, hgt1, hs1⟩ := h1
  obtain ⟨x2, rfl, hgt2, hs2⟩ := h2
  refine ⟨x1 ++ x2, by simp, ?_, ?_⟩
  · intro r hr
    rcases List.mem_append.mp hr with h | h
    · exact hgt1 r h
    · have := hgt2 r h
      have hle : maxId es ≤ maxId (es ++ x1) := by
        rw [maxId_append]; exact le_max_left _ _
      omega
  · rw [List.map_append]
    refine List.pairwise_append.mpr ⟨hs1, hs2, ?_⟩
    intro a ha b hb
    obtain ⟨ra, hra, rfl⟩ := List.mem_map.mp ha
    obtain ⟨rb, hrb, rfl⟩ := List.mem_map.mp hb
    have h1 : ra.id ≤ maxId (es ++ x1) :=
      id_le_maxId _ ra (List.mem_append.mpr (Or.inr hra))
    have h2 := hgt2 rb hrb
    omega

lemma assemble_extends (es : List Rec) : ExtendsIds es (assemble_preset es) := by
  unfold assemble_preset
  split
  · exact ExtendsIds.refl es
  · exact ⟨_, rfl, by intro r hr; simp at hr; simp [hr], by simp⟩

lemma segment_extends (es : List Rec) : ExtendsIds es (segment_assembled es) := by
  unfold segment_assembled
  cases hh : es.find? isHeaderRec with
  | none => exact ExtendsIds.refl es
  | some h =>
    cases ha : es.find? isAssembledRec with
    | none => dsimp only; exact ExtendsIds.refl es
    | some a =>
      dsimp only
      cases hp : parsePresetHeaderBlob h.data with
      | none => exact ExtendsIds.refl es
      | some hdr =>
        dsimp only
        split
        · exact ExtendsIds.refl es
        · refine ⟨_, rfl, ?_, ?_⟩
          · intro r hr
            obtain ⟨i, hi, rfl⟩ := List.mem_map.mp hr
            unfold segRec
            simp only
            omega
          · rw [List.map_map]
            have : (fun r : Rec => r.id) ∘ (fun i =>
                segRec (maxId es + 1) i
                  ((((a.data.drop (a.data.length -
                    (hdr.layFilt * 14 + hdr.layEnv * 92))).take
                    (hdr.layFilt * 14)).drop (i * 14)).take 14)) =
                (fun i => maxId es + 1 + i) := by
              funext i
              rfl
            rw [this]
            exact (List.pairwise_lt_range _).map _ (fun a b hab => by omega)

lemma augGo_ids (m : Models) (gen : Nat → String → List Nat) :
    ∀ (es : List Rec) (nid : Nat),
      (∀ r ∈ augGo m gen es nid, nid ≤ r.id) ∧
      List.Sorted (· < ·) ((augGo m gen es nid).map (·.id)) := by
  intro es
  induction es with
  | nil => intro nid; simp [augGo]
  | cons e es ih =>
    intro nid
    unfold augGo
    split
    · constructor
      · intro r hr
        rcases List.mem_cons.mp hr with rfl | h'
        · exact le_refl _
        · have := (ih (nid + 1)).1 r h'
          omega
      · rw [List.map_cons]
        rw [List.sorted_cons]
        refine ⟨?_, (ih (nid + 1)).2⟩
        intro b hb
        obtain ⟨rb, hrb, rfl⟩ := List.mem_map.mp hb
        have := (ih (nid + 1)).1 rb hrb
        show (zmfRec gen nid e.id (e.data.getD 0 0 % 3)).id < rb.id
        unfold zmfRec
        simp only
        omega
    · exact ih nid

lemma augment_extends (models : Option Models) (gen : Nat → String → List Nat)
    (es : List Rec) : ExtendsIds es (augment_with_zmf1 models gen es) := by
  unfold augment_with_zmf1
  cases models with
  | none => exact ExtendsIds.refl es
  | some m =>
    refine ⟨_, rfl, ?_, (augGo_ids m gen es (maxId es + 1)).2⟩
    intro r hr
    have := (augGo_ids m gen es (maxId es + 1)).1 r hr
    omega

lemma canonizeOne_id (spec : Option DevSpec) (i : Nat) (f : List Nat) (r : Rec)
    (h : canonizeOne spec i f = some r) : r.id = i := by
  unfold canonizeOne at h
  cases spec with
  | none => simp only [Option.some.injEq] at h; rw [← h]
  | some s =>
    dsimp only at h
    split at h
    · cases hp : proteusParse (if 2 ≤ f.length then (f.drop 1).dropLast else []) s with
      | none => rw [hp] at h; simp at h
      | some m => rw [hp] at h; simp only [Option.some.injEq] at h; rw [← h]
    · simp only [Option.some.injEq] at h; rw [← h]

lemma canonizeGo_ids (spec : Option DevSpec) : ∀ (fs : List (List Nat)) (i : Nat),
    (∀ r ∈ canonizeGo spec i fs, i ≤ r.id) ∧
    List.Sorted (· < ·) ((canonizeGo spec i fs).map (·.id)) := by
  intro fs
  induction fs with
  | nil => intro i; simp [canonizeGo]
  | cons f fs ih =>
    intro i
    unfold canonizeGo
    cases hc : canonizeOne spec i f with
    | none =>
      constructor
      · intro r hr
        have := (ih (i + 1)).1 r hr
        omega
      · exact (ih (i + 1)).2
    | some r0 =>
      have hid := canonizeOne_id spec i f r0 hc
      constructor
      · intro r hr
        rcases List.mem_cons.mp hr with rfl | h'
        · omega
        · have := (ih (i + 1)).1 r h'
          omega
      · rw [List.map_cons, List.sorted_cons]
        refine ⟨?_, (ih (i + 1)).2⟩
        intro b hb
        obtain ⟨rb, hrb, rfl⟩ := List.mem_map.mp hb
        have := (ih (i + 1)).1 rb hrb
        omega

/-- **C10** (id uniqueness): `canonize` assigns each record its frame's
ordinal index (hence strictly increasing ids), every synthetic record
appended by `assemble_preset`, `segment_assembled` or `augment_with_zmf1`
gets an id strictly above every id present at that point, so after the
full pipeline the id list is strictly increasing (hence pairwise
distinct) and every synthetic record's id exceeds every original
record's id. -/
theorem pipeline_id_invariant (frames : List (List Nat)) (spec : Option DevSpec)
    (models : Option Models) (gen : Nat → String → List Nat) :
    (∀ i f r, canonizeOne spec i f = some r → r.id = i) ∧
    List.Sorted (· < ·) ((canonize frames spec).map (·.id)) ∧
    ∃ extra, pipeline frames spec models gen = canonize frames spec ++ extra ∧
      List.Sorted (· < ·) ((pipeline frames spec models gen).map (·.id)) ∧
      ((pipeline frames spec models gen).map (·.id)).Nodup ∧
      ∀ r ∈ extra, ∀ r0 ∈ canonize frames spec, r0.id < r.id := by
  have hcan : List.Sorted (· < ·) ((canonize frames spec).map (·.id)) :=
    (canonizeGo_ids spec frames 0).2
  have hext : ExtendsIds (canonize frames spec) (pipeline frames spec models gen) :=
    ((assemble_extends (canonize frames spec)).trans
      (segment_extends _)).trans (augment_extends models gen _)
  obtain ⟨extra, heq, hgt, hsort⟩ := hext
  have hcross : ∀ r ∈ extra, ∀ r0 ∈ canonize frames spec, r0.id < r.id := by
    intro r hr r0 hr0
    have h1 := id_le_maxId _ r0 hr0
    have h2 := hgt r hr
    omega
  have hfull : List.Sorted (· < ·) ((pipeline frames spec models gen).map (·.id)) := by
    rw [heq, List.map_append]
    refine List.pairwise_append.mpr ⟨hcan, hsort, ?_⟩
    intro a ha b hb
    obtain ⟨ra, hra, rfl⟩ := List.mem_map.mp ha
    obtain ⟨rb, hrb, rfl⟩ := List.mem_map.mp hb
    exact hcross rb hrb ra hra
  refine ⟨fun i f r h => canonizeOne_id spec i f r h, hcan,
    extra, heq, hfull, hfull.nodup, hcross⟩

theorem pipeline_id_invariant_w :
    List.Sorted (· < ·)
      ((pipeline [[0xF0, 1, 2, 0xF7], [0xF0, 3, 0xF7]] none none
        (fun _ _ => [])).map (·.id)) ∧
    ((pipeline [[0xF0, 1, 2, 0xF7], [0xF0, 3, 0xF7]] none none
        (fun _ _ => [])).map (·.id)).Nodup := by
  obtain ⟨-, -, extra, -, hs, hn, -⟩ :=
    pipeline_id_invariant [[0xF0, 1, 2, 0xF7], [0xF0, 3, 0xF7]] none none (fun _ _ => [])
  exact ⟨hs, hn⟩

end SysexPack
